import Mathlib

/-!
Verification of the particle filter implementation in `src/pfilter.py`.

The Python source is shallowly embedded in Lean:
* real (float) scalars are modelled as rationals `ℚ` on the non-degenerate
  paths, and by an explicit IEEE-style type `FQ` (with `nan` and infinities)
  where the degenerate division-by-zero behaviour of the weight
  normalisation step matters;
* numpy arrays of statically known rank are modelled as (nested) lists;
  arrays of dynamic rank (the tensors fed to `squared_error`) are modelled by
  the inductive type `NP`;
* runtime errors (`IndexError`, `AxisError`) are modelled by `Option`/`none`,
  with exception propagation written with `Option.bind`/`Option.map`;
* the calls to the global random generator (`np.random.random()`, the prior
  draws `prior.rvs(n)`) are externalised: each random quantity is an explicit
  argument of the embedded function (`u0`, `randv`) or an explicit sampling
  function stored in the filter (`priors : List (Nat → List ℚ)`, so that
  `prior.rvs(n)` becomes `prior n`).

The file is organised as: all definitions (the embedding), then all lemmas
and theorems.
-/

namespace PFilter

/-- Sequence a list of optional values; `none` (a runtime error) propagates. -/
def optList {α : Type} : List (Option α) → Option (List α)
  | [] => some []
  | o :: os => o.bind fun a => (optList os).map fun as => a :: as

/-! ### The systematic resampler (`resample`, `src/pfilter.py` lines 9-18)

```python
def resample(weights):
  n = len(weights)
  indices = []
  C = [0.] + [np.sum(weights[:i+1]) for i in range(n)]
  u0, j = np.random.random(), 0
  for u in [(u0+i)/n for i in range(n)]:
    while u > C[j]:
      j+=1
    indices.append(j-1)
  return indices
```

`u0` (the single draw of `np.random.random()`, uniform on `[0,1)`) is an
explicit argument of the embedding.  The `while` loop probes the Python list
`C` at positions `j, j+1, ...`; running past its end raises `IndexError`,
modelled by `none`.  Probing `C` from position `j` onwards is walking down
the suffix `C.drop j`, which gives a structural recursion for the loop. -/

/-- `C = [0.] + [np.sum(weights[:i+1]) for i in range(n)]`. -/
def cumsum (weights : List ℚ) : List ℚ :=
  0 :: (List.range weights.length).map (fun i => ((weights.take (i + 1)).sum))

/-- The inner `while u > C[j]: j += 1` loop, walking the suffix of `C` that
starts at the cursor: advance while `C[j] < u`, return the final cursor, or
`none` on `IndexError`. -/
def advanceAux (u : ℚ) : List ℚ → Nat → Option Nat
  | [], _ => none
  | c :: rest, j => if c < u then advanceAux u rest (j + 1) else some j

/-- The `while` loop started at cursor position `j` of `C`. -/
def advance (C : List ℚ) (u : ℚ) (j : Nat) : Option Nat :=
  advanceAux u (C.drop j) j

/-- The `for u in [...]` loop of `resample`: the cursor `j` persists across
iterations, and `j - 1` is appended for each sample point. -/
def resampleLoop (C : List ℚ) : List ℚ → Nat → Option (List ℤ)
  | [], _ => some []
  | u :: us, j =>
    (advance C u j).bind fun j2 =>
      (resampleLoop C us j2).map fun rest => ((j2 : ℤ) - 1) :: rest

/-- `resample(weights)` with the random offset `u0` made explicit. -/
def resample (weights : List ℚ) (u0 : ℚ) : Option (List ℤ) :=
  let n := weights.length
  let C := cumsum weights
  let us := (List.range n).map (fun i : ℕ => (u0 + (i : ℚ)) / (n : ℚ))
  resampleLoop C us 0

/-! ### Python row indexing (`self.particles[indices, :]`, line 98)

numpy integer ("fancy") indexing on axis 0: a non-negative index `i` selects
row `i` (an out-of-range one raises `IndexError`); a negative index `i` with
`-len ≤ i` selects row `len + i` — in particular `-1` selects the *last*
row; a negative index below `-len` raises `IndexError`. -/

/-- One Python/numpy row access `p[i]` with negative-index semantics. -/
def pyGetRow {α : Type} (p : List α) (i : ℤ) : Option α :=
  if 0 ≤ i then p[i.toNat]?
  else if -(p.length : ℤ) ≤ i then p[((p.length : ℤ) + i).toNat]?
  else none

/-- `self.particles[indices, :]`: select the given rows, in order. -/
def pyFancyRows {α : Type} (p : List α) (idxs : List ℤ) : Option (List α) :=
  optList (idxs.map (pyGetRow p))

/-! ### IEEE-style float model for the weight-normalisation step
(`src/pfilter.py` lines 91-92)

```python
weights = np.clip(weights, 0, np.inf)
self.weights = weights / np.sum(weights)
```

numpy float division raises no exception: dividing by a zero sum silently
produces `nan` (`0/0`) or `inf` entries.  To settle the degenerate-sum claim
faithfully, the scalars of this step are modelled by `FQ`, rationals extended
with `nan` and the two infinities, with IEEE semantics for the operations the
step uses. -/

/-- A float: `nan`, `+inf`, `-inf`, or a finite value. -/
inductive FQ : Type where
  | nan : FQ
  | inf : FQ
  | ninf : FQ
  | fin : ℚ → FQ
deriving DecidableEq

/-- `np.clip(x, 0, np.inf)` on one scalar (`nan` propagates). -/
def fclip : FQ → FQ
  | FQ.nan => FQ.nan
  | FQ.inf => FQ.inf
  | FQ.ninf => FQ.fin 0
  | FQ.fin q => FQ.fin (max q 0)

/-- IEEE addition. -/
def fadd : FQ → FQ → FQ
  | FQ.nan, _ => FQ.nan
  | _, FQ.nan => FQ.nan
  | FQ.inf, FQ.ninf => FQ.nan
  | FQ.ninf, FQ.inf => FQ.nan
  | FQ.inf, _ => FQ.inf
  | _, FQ.inf => FQ.inf
  | FQ.ninf, _ => FQ.ninf
  | _, FQ.ninf => FQ.ninf
  | FQ.fin p, FQ.fin q => FQ.fin (p + q)

/-- `np.sum` over a float vector. -/
def fsum (l : List FQ) : FQ := l.foldl fadd (FQ.fin 0)

/-- IEEE division: `0/0 = nan`, `p/0 = ±inf` for finite nonzero `p`,
`inf/inf = nan`, `p/±inf = 0`; `nan` propagates. -/
def fdiv : FQ → FQ → FQ
  | FQ.nan, _ => FQ.nan
  | _, FQ.nan => FQ.nan
  | FQ.inf, FQ.inf => FQ.nan
  | FQ.inf, FQ.ninf => FQ.nan
  | FQ.ninf, FQ.inf => FQ.nan
  | FQ.ninf, FQ.ninf => FQ.nan
  | FQ.inf, FQ.fin q => if 0 ≤ q then FQ.inf else FQ.ninf
  | FQ.ninf, FQ.fin q => if 0 ≤ q then FQ.ninf else FQ.inf
  | FQ.fin _, FQ.inf => FQ.fin 0
  | FQ.fin _, FQ.ninf => FQ.fin 0
  | FQ.fin p, FQ.fin q =>
    if q = 0 then (if p = 0 then FQ.nan else if 0 < p then FQ.inf else FQ.ninf)
    else FQ.fin (p / q)

/-- Lines 91-92 of `update`, on floats: clip the raw weights to `[0, inf)`
and divide by their sum.  This is a *total* function: the Python code raises
no exception here, whatever the weights are. -/
def normalize_weights_float (ws : List FQ) : List FQ :=
  let clipped := ws.map fclip
  clipped.map (fun w => fdiv w (fsum clipped))

/-! ### Dynamic-rank numpy arrays and `squared_error`
(`src/pfilter.py` lines 27-30)

```python
def squared_error(x,y,sigma=1):
    # RBF kernel
    d = np.sum((x-y)**2, axis=(1,2))
    return np.exp(-d / (2.0*sigma**2))
```

`NP` models a numpy array of arbitrary rank: a scalar, or an array of
sub-arrays.  `np.sum(..., axis=(1,2))` reduces axes 2 and 1 (numpy reduces a
tuple of axes from the highest down); asking for an axis that does not exist
(`axis ≥ ndim`) raises `AxisError`, modelled by `none`.  Subtraction follows
numpy broadcasting for the cases the filter exercises: equal-rank arrays of
equal shape are subtracted elementwise, and an argument of smaller rank is
broadcast across the leading axes of the larger one.  (Size-1 axis expansion
and the empty-axis reduction are outside the claims and not modelled.) -/

/-- A numpy array of dynamic rank: a scalar or a list of sub-arrays. -/
inductive NP : Type where
  | s : ℚ → NP
  | a : List NP → NP

/-- `ndim`, read off the first element (arrays here are rectangular). -/
def ndim : NP → Nat
  | NP.s _ => 0
  | NP.a [] => 1
  | NP.a (x :: _) => 1 + ndim x

/-- Elementwise addition of two arrays of identical shape (used by the
axis-0 reduction of `np.sum`); shape mismatch is an error. -/
def npAdd : NP → NP → Option NP
  | NP.s p, NP.s q => some (NP.s (p + q))
  | NP.a [], NP.a [] => some (NP.a [])
  | NP.a (x :: xs), NP.a (y :: ys) =>
    (npAdd x y).bind fun h =>
      (npAdd (NP.a xs) (NP.a ys)).bind fun t =>
        match t with
        | NP.a ts => some (NP.a (h :: ts))
        | NP.s _ => none
  | _, _ => none

/-- Accumulating fold of `npAdd` (the reduction along axis 0). -/
def foldAdd : NP → List NP → Option NP
  | acc, [] => some acc
  | acc, b :: bs => (npAdd acc b).bind fun acc2 => foldAdd acc2 bs

mutual

/-- `np.sum(z, axis=k)`: axis 0 folds the sub-arrays together; axis `k+1`
recurses into every sub-array with axis `k`.  Reaching a scalar (or an empty
axis-0 reduction) is an `AxisError`-style failure, modelled as `none`. -/
def sumAxis : NP → Nat → Option NP
  | NP.s _, _ => none
  | NP.a [], 0 => none
  | NP.a (x :: xs), 0 => foldAdd x xs
  | NP.a xs, k + 1 => (sumAxisList xs k).map NP.a

/-- `sumAxis` mapped across a list of sub-arrays. -/
def sumAxisList : List NP → Nat → Option (List NP)
  | [], _ => some []
  | x :: xs, k =>
    (sumAxis x k).bind fun y => (sumAxisList xs k).map fun ys => y :: ys

end

/-- `np.sum(z, axis=(1,2))`: reduce axis 2, then axis 1. -/
def sumAxes12 (z : NP) : Option NP :=
  (sumAxis z 2).bind fun z1 => sumAxis z1 1

mutual

/-- Elementwise square `z**2`. -/
def npSquare : NP → NP
  | NP.s q => NP.s (q ^ 2)
  | NP.a xs => NP.a (npSquareList xs)

/-- `npSquare` mapped across a list of sub-arrays. -/
def npSquareList : List NP → List NP
  | [] => []
  | x :: xs => npSquare x :: npSquareList xs

end

mutual

/-- Elementwise scalar map (used for `-d / (2.0*sigma**2)`). -/
def npMap (f : ℚ → ℚ) : NP → NP
  | NP.s q => NP.s (f q)
  | NP.a xs => NP.a (npMapList f xs)

/-- `npMap` mapped across a list of sub-arrays. -/
def npMapList (f : ℚ → ℚ) : List NP → List NP
  | [] => []
  | x :: xs => npMap f x :: npMapList f xs

end

/-- Broadcasting subtraction `x - y`, with the recursion depth bounded by
`ndim x + ndim y + 1` (each level strips one axis from at least one side, so
this fuel is always sufficient). -/
def npSubF : Nat → NP → NP → Option NP
  | 0, _, _ => none
  | fuel + 1, x, y =>
    if ndim y < ndim x then
      match x with
      | NP.a xs => (optList (xs.map (fun x2 => npSubF fuel x2 y))).map NP.a
      | NP.s _ => none
    else if ndim x < ndim y then
      match y with
      | NP.a ys => (optList (ys.map (fun y2 => npSubF fuel x y2))).map NP.a
      | NP.s _ => none
    else
      match x, y with
      | NP.s p, NP.s q => some (NP.s (p - q))
      | NP.a xs, NP.a ys =>
        if xs.length = ys.length then
          (optList ((xs.zip ys).map (fun pq => npSubF fuel pq.1 pq.2))).map NP.a
        else none
      | _, _ => none

/-- Broadcasting subtraction `x - y`. -/
def npSub (x y : NP) : Option NP := npSubF (ndim x + ndim y + 1) x y

/-- The exponent `-d / (2.0*sigma**2)` computed by `squared_error`, where
`d = np.sum((x-y)**2, axis=(1,2))`.  The source's final step applies the
strictly monotone `np.exp` elementwise to exactly this array; the
transcendental wrapper is kept out of the executable embedding, so `none`
here is precisely a Python exception in `squared_error`, and a returned
array holds the exponents of the returned weights. -/
def squared_error_exponent (x y : NP) (sigma : ℚ) : Option NP :=
  (npSub x y).bind fun diff =>
    (sumAxes12 (npSquare diff)).map fun d =>
      npMap (fun q => -q / (2 * sigma ^ 2)) d

/-- A 1-d numpy array from a list of scalars. -/
def toNP1 (r : List ℚ) : NP := NP.a (r.map NP.s)

/-- A 2-d numpy array from a list of rows. -/
def toNP2 (m : List (List ℚ)) : NP := NP.a (m.map toNP1)

/-- Elementwise difference of two equal-shape matrices. -/
def sub2 (m y : List (List ℚ)) : List (List ℚ) :=
  (m.zip y).map (fun rs => (rs.1.zip rs.2).map (fun ab => ab.1 - ab.2))

/-- Elementwise square of a matrix. -/
def sq2 (m : List (List ℚ)) : List (List ℚ) :=
  m.map (fun r => r.map (fun q => q ^ 2))

/-- The squared Euclidean distance between two equal-shape matrices, reduced
over both axes (the `d` of `squared_error` for one image hypothesis). -/
def sqdist2 (m y : List (List ℚ)) : ℚ :=
  ((sq2 (sub2 m y)).map List.sum).sum

/-! ### The filter engine (`ParticleFilter`, `src/pfilter.py` lines 21-25
and 36-107) -/

/-- `def no_dynamics(x): return x`. -/
def no_dynamics (x : List (List ℚ)) : List (List ℚ) := x

/-- `def no_noise(x): return x`. -/
def no_noise (x : List (List ℚ)) : List (List ℚ) := x

/-- `weights = np.clip(weights, 0, np.inf)` (line 91), on the exact-rational
model of the non-degenerate paths. -/
def clip_weights (ws : List ℚ) : List ℚ := ws.map (fun w => max w 0)

/-- Lines 91-92: clip, then divide by the sum of the clipped weights.  (The
degenerate zero-sum branch of this step is modelled separately, on floats,
by `normalize_weights_float`.) -/
def normalize_weights (ws : List ℚ) : List ℚ :=
  (clip_weights ws).map (fun w => w / (clip_weights ws).sum)

/-- `np.sum(rows.T * w, axis=-1).T` for a rectangular `N×K` array `rows` and
a length-`N` vector `w` (lines 101-102): entry `j` is `Σ_k rows[k][j]·w[k]`;
the column count of a rectangular array is the length of its first row. -/
def weighted_mean (rows : List (List ℚ)) (w : List ℚ) : List ℚ :=
  (List.range (rows.headD []).length).map
    (fun j => ((rows.zip w).map (fun rw => rw.1.getD j 0 * rw.2)).sum)

/-- The effect of one `init_filter` column assignment on absolute row `k`:
without a mask the row's entry `i` becomes the `k`-th draw of prior `i`;
with a mask this happens only when the mask selects row `k`. -/
def set_entry (i : Nat) (col : List ℚ) : Option (List Bool) → Nat → List ℚ → List ℚ
  | none, k, row => row.set i (col.getD k 0)
  | some m, k, row => if m.getD k false then row.set i (col.getD k 0) else row

/-- One pass of `init_filter`'s loop body for prior `i`
(`self.particles[:,i] = prior.rvs(n)` without a mask, or
`self.particles[mask,i] = prior.rvs(n)[mask]` with one): walk the rows,
tracking the row index `k`; a masked-out row is left untouched.  Equal
lengths of the row list, the draw column and the mask are assumed at the
call sites (numpy enforces them at runtime). -/
def set_column (i : Nat) (col : List ℚ) (mask : Option (List Bool)) :
    Nat → List (List ℚ) → List (List ℚ)
  | _, [] => []
  | k, row :: rows => set_entry i col mask k row :: set_column i col mask (k + 1) rows

/-- `init_filter` (lines 68-75) acting on the particle matrix: for each
prior `i` (whose fresh draws form `draws[i]`), overwrite column `i` — all of
it with no mask, only the mask-true rows otherwise. -/
def init_filter_particles (particles draws : List (List ℚ))
    (mask : Option (List Bool)) : List (List ℚ) :=
  draws.enum.foldl (fun acc ic => set_column ic.1 ic.2 mask 0 acc) particles

/-- The engine state: the constructor-time configuration (lines 57-65) plus
the mutable result fields.  `O` is the type of one observation; hypotheses
are modelled as `N×K` matrices.  A prior is modelled as its sampling
function `n ↦ rvs(n)`. -/
structure ParticleFilter (O : Type) where
  column_names : Option (List String)
  priors : List (Nat → List ℚ)
  d : Nat
  n_particles : Nat
  inverse_fn : List (List ℚ) → List (List ℚ)
  dynamics_fn : List (List ℚ) → List (List ℚ)
  noise_fn : List (List ℚ) → List (List ℚ)
  weight_fn : List (List ℚ) → O → List ℚ
  resample_proportion : ℚ
  particles : List (List ℚ)
  weights : Option (List ℚ)
  hypotheses : Option (List (List ℚ))
  mean_hypothesis : Option (List ℚ)
  mean_state : Option (List ℚ)
  resampled_particles : Option (List Bool)

/-- `ParticleFilter.__init__` (lines 37-66): `d = len(priors)`,
`dynamics_fn = dynamics_fn or no_dynamics` (same for noise),
`particles = np.zeros((n_particles, d))`; the result fields are unset.
(`weight_fn or squared_error` defaults the weight kernel; the kernel is
passed explicitly here because `squared_error` acts on dynamic-rank tensors,
modelled separately by `squared_error_exponent`.) -/
def mkParticleFilter {O : Type} (priors : List (Nat → List ℚ))
    (inverse_fn : List (List ℚ) → List (List ℚ))
    (n_particles : Nat)
    (dynamics_fn : Option (List (List ℚ) → List (List ℚ)))
    (noise_fn : Option (List (List ℚ) → List (List ℚ)))
    (weight_fn : List (List ℚ) → O → List ℚ)
    (resample_proportion : ℚ)
    (column_names : Option (List String)) : ParticleFilter O :=
  { column_names := column_names
    priors := priors
    d := priors.length
    n_particles := n_particles
    inverse_fn := inverse_fn
    dynamics_fn := dynamics_fn.getD no_dynamics
    noise_fn := noise_fn.getD no_noise
    weight_fn := weight_fn
    resample_proportion := resample_proportion
    particles := List.replicate n_particles (List.replicate priors.length 0)
    weights := none
    hypotheses := none
    mean_hypothesis := none
    mean_state := none
    resampled_particles := none }

/-- `init_filter` (lines 68-75): redraw particles from the priors —
`prior.rvs(self.n_particles)` becomes `prior pf.n_particles` — replacing
every row with no mask, and only the mask-true rows otherwise. -/
def ParticleFilter.init_filter {O : Type} (pf : ParticleFilter O)
    (mask : Option (List Bool)) : ParticleFilter O :=
  { pf with
    particles :=
      init_filter_particles pf.particles
        (pf.priors.map (fun prior => prior pf.n_particles)) mask }

/-- `update(observed)` (lines 77-107), with the two random draws of the
cycle passed explicitly: `u0` is the resampler's offset and `randv` the
vector drawn by `np.random.random(size=(n_particles,))` for the diversity
mask.  The steps, in source order: dynamics then noise; hypotheses;
raw weights; clip and normalise; resample and select rows (a Python
`IndexError` in either propagates as `none`); mean hypothesis from the
*pre-resample* hypotheses and mean state from the *post-resample* particles,
both against the normalised weights; draw the diversity mask and
reinitialise the masked rows from the priors. -/
def ParticleFilter.update {O : Type} (pf : ParticleFilter O) (observed : O)
    (u0 : ℚ) (randv : List ℚ) : Option (ParticleFilter O) :=
  let particles1 := pf.noise_fn (pf.dynamics_fn pf.particles)
  let hyps := pf.inverse_fn particles1
  let weights := normalize_weights (pf.weight_fn hyps observed)
  (resample weights u0).bind fun indices =>
    (pyFancyRows particles1 indices).map fun particles2 =>
      let random_mask := randv.map (fun r => decide (r < pf.resample_proportion))
      ParticleFilter.init_filter
        { pf with
          particles := particles2
          hypotheses := some hyps
          weights := some weights
          mean_hypothesis := some (weighted_mean hyps weights)
          mean_state := some (weighted_mean particles2 weights)
          resampled_particles := some random_mask }
        (some random_mask)

/-- `p.length = n` and every row of `p` has length `d`: the matrix `p` has
shape `(n, d)`. -/
def shape2 (p : List (List ℚ)) (n d : Nat) : Prop :=
  p.length = n ∧ ∀ row ∈ p, row.length = d

/-- A concrete two-particle filter used for witnesses and counterexamples:
one prior (`d = 1`), `N = 2`, dynamics forcing the ensemble to `[[0],[1]]`,
identity noise and sensor-inverse, a kernel weighing the two hypotheses
`3 : 1`, and no diversity injection. -/
def pfC1 : ParticleFilter Unit :=
  mkParticleFilter [fun _ => [9, 9]] id 2 (some (fun _ => [[0], [1]])) none
    (fun _ _ => [3, 1]) 0 none

/-- The state `pfC1.update () (1/2) [1, 1]` produces: normalised weights
`[3/4, 1/4]`, resample indices `[0, 0]`, hence a collapsed ensemble
`[[0], [0]]`; the mean hypothesis `[1/4]` comes from the pre-resample
hypotheses but the mean state `[0]` from the post-resample ensemble. -/
def pfC1res : ParticleFilter Unit :=
  { pfC1 with
    particles := [[0], [0]]
    hypotheses := some [[0], [1]]
    weights := some [3/4, 1/4]
    mean_hypothesis := some [1/4]
    mean_state := some [0]
    resampled_particles := some [false, false] }

/-! ## Lemmas and theorems -/

/-- A successful `resampleLoop` returns one index per sample point. -/
theorem resampleLoop_length (C : List ℚ) :
    ∀ (us : List ℚ) (j : Nat) (l : List ℤ),
      resampleLoop C us j = some l → l.length = us.length := by
  intro us
  induction us with
  | nil =>
    intro j l h
    simp only [resampleLoop, Option.some.injEq] at h
    simp [← h]
  | cons u us ih =>
    intro j l h
    simp only [resampleLoop] at h
    cases ha : advance C u j with
    | none => rw [ha] at h; simp at h
    | some j2 =>
      rw [ha] at h
      simp only [Option.some_bind] at h
      cases hr : resampleLoop C us j2 with
      | none => rw [hr] at h; simp at h
      | some rest =>
        rw [hr] at h
        simp only [Option.map_some', Option.some.injEq] at h
        subst h
        simp [ih j2 rest hr]

/-- A successful `resample` returns exactly one index per weight. -/
theorem resample_length (ws : List ℚ) (u0 : ℚ) (l : List ℤ)
    (h : resample ws u0 = some l) : l.length = ws.length := by
  simp only [resample] at h
  have h2 := resampleLoop_length _ _ _ _ h
  simpa using h2

/-- Claim C3: `resample` implements systematic resampling — it builds the
cumulative sums `C[0] = 0, C[k] = sum weights[0..k-1]`, forms the sample
points `u_i = (u0 + i)/N`, and for each `u_i` advances a cursor `j`
(persisting across iterations) while `u_i > C[j]`, appending `j - 1`; this
is precisely the definition of `resample`/`resampleLoop`/`advance`/`cumsum`
above.  In particular, for weights `[0.1, 0.2, 0.3, 0.4]`, `N = 4` and the
fixed offset `u0 = 0.05`, it deterministically returns `[0, 1, 2, 3]`. -/
theorem resample_systematic_example :
    resample [1/10, 2/10, 3/10, 4/10] (1/20) = some [0, 1, 2, 3] := by
  norm_num [resample, resampleLoop, advance, advanceAux, cumsum, List.range_succ]

/-- Counterexample to claim C4: with the fully concentrated weight vector
`[1,0,0,0]` and the offset `u0 = 0` (a legal value of `np.random.random()`,
which is uniform on the half-open interval `[0,1)`), `resample` returns
`[-1, 0, 0, 0]`: index `0` appears only 3 times, not 4, and the first
returned index is `-1`. -/
theorem resample_concentrated_zero_offset_counterexample :
    resample [1, 0, 0, 0] 0 = some [-1, 0, 0, 0] ∧
      List.count (0 : ℤ) [-1, 0, 0, 0] = 3 ∧ (3 : Nat) ≠ 4 := by
  refine ⟨?_, by decide, by decide⟩
  norm_num [resample, resampleLoop, advance, advanceAux, cumsum, List.range_succ]

/-- Claim C4 as amended: on the concentrated weight vector `[1,0,0,0]`,
`resample` terminates (returns a value, never loops) for every offset
`u0 ∈ [0,1)`; for `u0 ∈ (0,1)` it returns index 0 exactly 4 times, while for
`u0 = 0` the first appended index is `-1` and index 0 appears only 3 times. -/
theorem resample_concentrated_offsets (u0 : ℚ) (h0 : 0 ≤ u0) (h1 : u0 < 1) :
    (0 < u0 → resample [1, 0, 0, 0] u0 = some [0, 0, 0, 0]) ∧
      (u0 = 0 → resample [1, 0, 0, 0] u0 = some [-1, 0, 0, 0]) := by
  constructor
  · intro hpos
    have e2 : ¬ ((1 : ℚ) < u0 / 4) := by rw [not_lt]; linarith
    have e3 : ¬ ((1 : ℚ) < (u0 + 1) / 4) := by rw [not_lt]; linarith
    have e4 : ¬ ((1 : ℚ) < (u0 + 2) / 4) := by rw [not_lt]; linarith
    have e5 : ¬ ((1 : ℚ) < (u0 + 3) / 4) := by rw [not_lt]; linarith
    norm_num [resample, resampleLoop, advance, advanceAux, cumsum,
      List.range_succ, hpos, e2, e3, e4, e5]
  · intro hz
    subst hz
    norm_num [resample, resampleLoop, advance, advanceAux, cumsum, List.range_succ]

/-- Witness for `resample_concentrated_offsets` at the concrete offset
`u0 = 1/2`. -/
theorem resample_concentrated_offsets_witness :
    ((0 : ℚ) < 1/2 → resample [1, 0, 0, 0] (1/2) = some [0, 0, 0, 0]) ∧
      ((1/2 : ℚ) = 0 → resample [1, 0, 0, 0] (1/2) = some [-1, 0, 0, 0]) :=
  resample_concentrated_offsets (1/2) (by norm_num) (by norm_num)

/-- `p[-1]` is the last row of `p` (and `none` exactly when `p` is empty). -/
theorem pyGetRow_neg_one {α : Type} (p : List α) :
    pyGetRow p (-1) = p.getLast? := by
  cases p with
  | nil => simp [pyGetRow]
  | cons a t =>
    have h1 : ¬ ((0 : ℤ) ≤ -1) := by norm_num
    have h2 : -(((a :: t).length : ℤ)) ≤ -1 := by
      simp only [List.length_cons]
      omega
    have h3 : (((a :: t).length : ℤ) + -1).toNat = (a :: t).length - 1 := by
      omega
    rw [pyGetRow, if_neg h1, if_pos h2, h3, List.getLast?_eq_getElem?]

/-- Claim C9: with offset `u0 = 0`, the first sample point is
`u_0 = (0 + 0)/n = 0`, which is not strictly greater than `C[0] = 0`, so the
`while` loop does not advance and `resample` appends `j - 1 = -1` as the
first index; whenever the call returns at all, the returned list starts with
`-1`.  Moreover, Python indexing with `-1` (as in
`self.particles[indices, :]`) selects the *last* row of the array, not a row
chosen proportionally to its weight. -/
theorem resample_zero_offset_first_index (ws : List ℚ) (l : List ℤ)
    (hws : ws ≠ []) (h : resample ws 0 = some l) :
    l.head? = some (-1) ∧
      ∀ {α : Type} (p : List α), pyGetRow p (-1) = p.getLast? := by
  refine ⟨?_, fun p => pyGetRow_neg_one p⟩
  obtain ⟨w, ws', rfl⟩ := List.exists_cons_of_ne_nil hws
  simp only [resample] at h
  simp only [List.length_cons, List.range_succ_eq_map, List.map_cons, List.map_map] at h
  simp only [Nat.cast_zero, add_zero, zero_div] at h
  simp only [resampleLoop] at h
  have hadv : advance (cumsum (w :: ws')) 0 0 = some 0 := by
    simp [advance, advanceAux, cumsum]
  rw [hadv] at h
  simp only [Option.some_bind] at h
  rw [Option.map_eq_some'] at h
  obtain ⟨rest, _, hl⟩ := h
  rw [← hl]
  simp

/-- Witness for `resample_zero_offset_first_index`: the concrete run on the
normalized weight vector `[1/2, 1/2]` with `u0 = 0`, which returns
`[-1, 0]`. -/
theorem resample_zero_offset_first_index_witness :
    ([(-1 : ℤ), 0].head? = some (-1)) ∧
      ∀ {α : Type} (p : List α), pyGetRow p (-1) = p.getLast? :=
  resample_zero_offset_first_index [1/2, 1/2] [-1, 0] (by simp)
    (by norm_num [resample, resampleLoop, advance, advanceAux, cumsum, List.range_succ])

/-- Claim C2 (evaluation at the failing input): when every raw weight clips
to zero — here the concrete vector `[0, 0]` — the sum of the clipped weights
is `0` and `update` does *not* surface any error: the normalisation step
performs `0/0` for each entry and silently stores all-`nan` weights. -/
theorem normalize_zero_sum_weights_nan :
    normalize_weights_float [FQ.fin 0, FQ.fin 0] = [FQ.nan, FQ.nan] := by
  norm_num [normalize_weights_float, fclip, fsum, fadd, fdiv]

theorem pfC1_update_eq : pfC1.update () (1/2) [1, 1] = some pfC1res := by
  norm_num [ParticleFilter.update, ParticleFilter.init_filter, pfC1, pfC1res,
    mkParticleFilter, normalize_weights, clip_weights, weighted_mean,
    resample, resampleLoop, advance, advanceAux, cumsum, List.range_succ,
    pyFancyRows, pyGetRow, optList, init_filter_particles, set_column, set_entry,
    no_noise, no_dynamics, List.enum, List.enumFrom, List.replicate]

/-- Dividing every entry of a list by a fixed scalar divides its sum. -/
theorem sum_map_div (l : List ℚ) (s : ℚ) :
    (l.map (fun w => w / s)).sum = l.sum / s := by
  induction l with
  | nil => simp
  | cons a t ih => simp [ih, add_div]

/-- The normalised weights sum to 1 whenever the clipped weights have
strictly positive sum. -/
theorem normalize_weights_sum (ws : List ℚ)
    (hpos : 0 < (clip_weights ws).sum) : (normalize_weights ws).sum = 1 := by
  rw [normalize_weights, sum_map_div]
  exact div_self (ne_of_gt hpos)

/-- Normalisation keeps the length of the weight vector. -/
theorem normalize_weights_length (ws : List ℚ) :
    (normalize_weights ws).length = ws.length := by
  simp [normalize_weights, clip_weights]

/-- Claim C7: after every `update` call whose clipped raw weights have a
strictly positive sum (in the exact-rational model every rational is
finite), the stored `weights` field holds the clipped raw weights divided by
their total, and it sums to 1. -/
theorem update_weights_sum_one {O : Type} (pf : ParticleFilter O) (observed : O)
    (u0 : ℚ) (randv : List ℚ) (pf' : ParticleFilter O)
    (hupd : pf.update observed u0 randv = some pf')
    (hpos : 0 < (clip_weights (pf.weight_fn
      (pf.inverse_fn (pf.noise_fn (pf.dynamics_fn pf.particles))) observed)).sum) :
    ∃ w, pf'.weights = some w ∧ w.sum = 1 := by
  simp only [ParticleFilter.update] at hupd
  cases hr : resample (normalize_weights (pf.weight_fn
      (pf.inverse_fn (pf.noise_fn (pf.dynamics_fn pf.particles))) observed)) u0 with
  | none => rw [hr] at hupd; simp at hupd
  | some indices =>
    rw [hr] at hupd
    simp only [Option.some_bind] at hupd
    cases hp : pyFancyRows (pf.noise_fn (pf.dynamics_fn pf.particles)) indices with
    | none => rw [hp] at hupd; simp at hupd
    | some particles2 =>
      rw [hp] at hupd
      simp only [Option.map_some', Option.some.injEq] at hupd
      subst hupd
      refine ⟨normalize_weights (pf.weight_fn
        (pf.inverse_fn (pf.noise_fn (pf.dynamics_fn pf.particles))) observed), ?_, ?_⟩
      · simp [ParticleFilter.init_filter]
      · exact normalize_weights_sum _ hpos

/-- Witness for `update_weights_sum_one`: the concrete run of `pfC1`. -/
theorem update_weights_sum_one_witness :
    ∃ w, pfC1res.weights = some w ∧ w.sum = 1 :=
  update_weights_sum_one pfC1 () (1/2) [1, 1] pfC1res pfC1_update_eq
    (by norm_num [pfC1, mkParticleFilter, clip_weights, no_noise, no_dynamics,
      List.replicate])

/-- Claim C1 as amended: whenever `update` completes, `mean_hypothesis` is
the normalised-weights-weighted average of the *pre-resample* hypotheses, as
the claim states — but `mean_state` is the weighted average of the
*post-resample* (already collapsed) ensemble `particles2`, not of the
pre-resample ensemble: line 98 overwrites `self.particles` before line 102
reads it. -/
theorem update_mean_semantics {O : Type} (pf : ParticleFilter O) (observed : O)
    (u0 : ℚ) (randv : List ℚ) (indices : List ℤ) (particles2 : List (List ℚ))
    (hr : resample (normalize_weights (pf.weight_fn
      (pf.inverse_fn (pf.noise_fn (pf.dynamics_fn pf.particles))) observed)) u0
        = some indices)
    (hp : pyFancyRows (pf.noise_fn (pf.dynamics_fn pf.particles)) indices
        = some particles2) :
    (pf.update observed u0 randv).map ParticleFilter.mean_state
        = some (some (weighted_mean particles2 (normalize_weights (pf.weight_fn
            (pf.inverse_fn (pf.noise_fn (pf.dynamics_fn pf.particles))) observed)))) ∧
    (pf.update observed u0 randv).map ParticleFilter.mean_hypothesis
        = some (some (weighted_mean
            (pf.inverse_fn (pf.noise_fn (pf.dynamics_fn pf.particles)))
            (normalize_weights (pf.weight_fn
              (pf.inverse_fn (pf.noise_fn (pf.dynamics_fn pf.particles))) observed)))) := by
  simp only [ParticleFilter.update]
  rw [hr]
  simp only [Option.some_bind]
  rw [hp]
  simp [ParticleFilter.init_filter]

/-- Witness for `update_mean_semantics`: the concrete run of `pfC1`, whose
resample step returns indices `[0, 0]` and collapsed ensemble `[[0], [0]]`. -/
theorem update_mean_semantics_witness :
    (pfC1.update () (1/2) [1, 1]).map ParticleFilter.mean_state
        = some (some (weighted_mean [[0], [0]] (normalize_weights (pfC1.weight_fn
            (pfC1.inverse_fn (pfC1.noise_fn (pfC1.dynamics_fn pfC1.particles))) ())))) ∧
    (pfC1.update () (1/2) [1, 1]).map ParticleFilter.mean_hypothesis
        = some (some (weighted_mean
            (pfC1.inverse_fn (pfC1.noise_fn (pfC1.dynamics_fn pfC1.particles)))
            (normalize_weights (pfC1.weight_fn
              (pfC1.inverse_fn (pfC1.noise_fn (pfC1.dynamics_fn pfC1.particles))) ())))) :=
  update_mean_semantics pfC1 () (1/2) [1, 1] [0, 0] [[0], [0]]
    (by norm_num [pfC1, mkParticleFilter, no_noise, no_dynamics, List.replicate,
      normalize_weights, clip_weights, resample, resampleLoop, advance,
      advanceAux, cumsum, List.range_succ])
    (by norm_num [pfC1, mkParticleFilter, no_noise, no_dynamics, List.replicate,
      pyFancyRows, pyGetRow, optList])

/-- Counterexample to claim C1: in the concrete run of `pfC1`, the
pre-resample ensemble is `[[0], [1]]` and the stored weights are
`[3/4, 1/4]`, so the weights-weighted average of the *pre-resample* ensemble
is `[1/4]`; but `update` stores `mean_state = [0]`, the weighted average of
the *post-resample* ensemble `[[0], [0]]`. -/
theorem update_mean_state_pre_resample_counterexample :
    (pfC1.update () (1/2) [1, 1]).map ParticleFilter.mean_state = some (some [0]) ∧
    pfC1.noise_fn (pfC1.dynamics_fn pfC1.particles) = [[0], [1]] ∧
    (pfC1.update () (1/2) [1, 1]).map ParticleFilter.weights
        = some (some [3/4, 1/4]) ∧
    weighted_mean [[0], [1]] [3/4, 1/4] = [1/4] ∧
    some (some ([0] : List ℚ)) ≠ some (some ([1/4] : List ℚ)) := by
  rw [pfC1_update_eq]
  refine ⟨by simp [pfC1res], ?_, by simp [pfC1res], ?_, by norm_num⟩
  · norm_num [pfC1, mkParticleFilter, no_noise, no_dynamics, List.replicate]
  · norm_num [weighted_mean, List.range_succ]

/-- Claim C10: `update` only writes the result fields; every configuration
field fixed at construction is unchanged by a completed `update` call. -/
theorem update_preserves_config {O : Type} (pf : ParticleFilter O) (observed : O)
    (u0 : ℚ) (randv : List ℚ) (pf' : ParticleFilter O)
    (hupd : pf.update observed u0 randv = some pf') :
    pf'.priors = pf.priors ∧ pf'.d = pf.d ∧ pf'.n_particles = pf.n_particles ∧
    pf'.inverse_fn = pf.inverse_fn ∧ pf'.dynamics_fn = pf.dynamics_fn ∧
    pf'.noise_fn = pf.noise_fn ∧ pf'.weight_fn = pf.weight_fn ∧
    pf'.resample_proportion = pf.resample_proportion ∧
    pf'.column_names = pf.column_names := by
  simp only [ParticleFilter.update] at hupd
  cases hr : resample (normalize_weights (pf.weight_fn
      (pf.inverse_fn (pf.noise_fn (pf.dynamics_fn pf.particles))) observed)) u0 with
  | none => rw [hr] at hupd; simp at hupd
  | some indices =>
    rw [hr] at hupd
    simp only [Option.some_bind] at hupd
    cases hp : pyFancyRows (pf.noise_fn (pf.dynamics_fn pf.particles)) indices with
    | none => rw [hp] at hupd; simp at hupd
    | some particles2 =>
      rw [hp] at hupd
      simp only [Option.map_some', Option.some.injEq] at hupd
      subst hupd
      simp [ParticleFilter.init_filter]

/-- A column assignment keeps the length of every row. -/
theorem set_entry_length (i : Nat) (col : List ℚ) (mask : Option (List Bool))
    (k : Nat) (row : List ℚ) :
    (set_entry i col mask k row).length = row.length := by
  cases mask with
  | none => simp [set_entry]
  | some m =>
    rw [set_entry]
    split <;> simp

/-- Entrywise description of one `set_column` pass: row `k` of the result is
row `k` of the input transformed by the assignment for absolute row
`start + k`. -/
theorem set_column_getElem? (i : Nat) (col : List ℚ) (mask : Option (List Bool)) :
    ∀ (p : List (List ℚ)) (start k : Nat),
      (set_column i col mask start p)[k]? =
        (p[k]?).map (set_entry i col mask (start + k)) := by
  intro p
  induction p with
  | nil => intro start k; simp [set_column]
  | cons r rows ih =>
    intro start k
    cases k with
    | zero => simp [set_column]
    | succ k2 =>
      simp only [set_column, List.getElem?_cons_succ]
      rw [ih (start + 1) k2]
      have harith : start + 1 + k2 = start + (k2 + 1) := by omega
      rw [harith]

/-- `set_column` never changes the number of rows. -/
theorem set_column_length (i : Nat) (col : List ℚ) (mask : Option (List Bool)) :
    ∀ (p : List (List ℚ)) (k : Nat), (set_column i col mask k p).length = p.length := by
  intro p
  induction p with
  | nil => intro k; rfl
  | cons r rows ih => intro k; simp [set_column, ih]

/-- `set_column` never changes the width of any row (`List.set` keeps
lengths). -/
theorem set_column_rows_length (i : Nat) (col : List ℚ) (mask : Option (List Bool))
    (d : Nat) :
    ∀ (p : List (List ℚ)) (k : Nat), (∀ row ∈ p, row.length = d) →
      ∀ row ∈ set_column i col mask k p, row.length = d := by
  intro p
  induction p with
  | nil => intro k _ row hrow; simp [set_column] at hrow
  | cons r rows ih =>
    intro k h row hrow
    simp only [set_column, List.mem_cons] at hrow
    have hr : r.length = d := h r (List.mem_cons_self r rows)
    rcases hrow with h1 | h2
    · subst h1
      rw [set_entry_length]
      exact hr
    · exact ih (k + 1) (fun row2 hrow2 => h row2 (List.mem_cons_of_mem _ hrow2)) row h2

/-- The column-setting fold of `init_filter` keeps the number of rows. -/
theorem foldl_set_column_length (mask : Option (List Bool)) :
    ∀ (l : List (Nat × List ℚ)) (p : List (List ℚ)),
      (l.foldl (fun acc ic => set_column ic.1 ic.2 mask 0 acc) p).length = p.length := by
  intro l
  induction l with
  | nil => intro p; rfl
  | cons ic l ih =>
    intro p
    rw [List.foldl_cons, ih, set_column_length]

/-- The column-setting fold of `init_filter` keeps the width of every row. -/
theorem foldl_set_column_rows_length (mask : Option (List Bool)) (d : Nat) :
    ∀ (l : List (Nat × List ℚ)) (p : List (List ℚ)),
      (∀ row ∈ p, row.length = d) →
      ∀ row ∈ l.foldl (fun acc ic => set_column ic.1 ic.2 mask 0 acc) p,
        row.length = d := by
  intro l
  induction l with
  | nil => intro p h; exact h
  | cons ic l ih =>
    intro p h
    rw [List.foldl_cons]
    exact ih _ (set_column_rows_length ic.1 ic.2 mask d p 0 h)

/-- Rows whose mask entry is false are untouched by the masked fold. -/
theorem foldl_set_column_mask_frame (m : List Bool) (k : Nat)
    (hm : m.getD k false = false) :
    ∀ (l : List (Nat × List ℚ)) (p : List (List ℚ)),
      (l.foldl (fun acc ic => set_column ic.1 ic.2 (some m) 0 acc) p)[k]? = p[k]? := by
  intro l
  induction l with
  | nil => intro p; rfl
  | cons ic l ih =>
    intro p
    rw [List.foldl_cons, ih, set_column_getElem?]
    have hm2 : m[k]?.getD false = false := by
      simpa [List.getD_eq_getElem?_getD] using hm
    cases hpk : p[k]? <;> simp [set_entry, hm, hm2]

/-- Row `k` after the maskless fold: the per-row sets accumulate. -/
theorem foldl_set_column_nomask_getElem? (k : Nat) :
    ∀ (l : List (Nat × List ℚ)) (p : List (List ℚ)),
      (l.foldl (fun acc ic => set_column ic.1 ic.2 none 0 acc) p)[k]? =
        (p[k]?).map (fun row =>
          l.foldl (fun r ic => r.set ic.1 (ic.2.getD k 0)) row) := by
  intro l
  induction l with
  | nil =>
    intro p
    simp
  | cons ic l ih =>
    intro p
    rw [List.foldl_cons, ih, set_column_getElem?, Option.map_map]
    simp only [Nat.zero_add]
    rfl

/-- Setting a prefix of positions `start, start+1, ...` of a row to the
enumerated values replaces everything from `start` on. -/
theorem foldl_set_enumFrom (vals : List ℚ) :
    ∀ (start : Nat) (row : List ℚ), row.length = start + vals.length →
      ((List.enumFrom start vals).foldl (fun r iv => r.set iv.1 iv.2) row) =
        row.take start ++ vals := by
  induction vals with
  | nil =>
    intro start row h
    simp only [List.length_nil, Nat.add_zero] at h
    simp [List.enumFrom, List.take_of_length_le (le_of_eq h)]
  | cons v vs ih =>
    intro start row h
    rw [List.enumFrom_cons, List.foldl_cons]
    have hlen : (row.set start v).length = (start + 1) + vs.length := by
      simp only [List.length_set]
      simp only [List.length_cons] at h
      omega
    rw [ih (start + 1) (row.set start v) hlen]
    have hstart : start < row.length := by
      simp only [List.length_cons] at h
      omega
    have htake : (row.set start v).take (start + 1) = row.take start ++ [v] := by
      rw [List.set_eq_take_append_cons_drop, if_pos hstart,
        List.take_append_eq_append_take]
      have h1 : (row.take start).length = start := by
        rw [List.length_take]
        omega
      rw [h1]
      have h2 : start + 1 - start = 1 := by omega
      rw [h2]
      rw [List.take_of_length_le (by rw [h1]; omega)]
      simp
    rw [htake, List.append_assoc, List.singleton_append]

/-- The maskless column fold of `init_filter` replaces row `k` entirely with
the `k`-th draw of each prior, provided the row has one entry per prior. -/
theorem enum_foldl_set_full (draws : List (List ℚ)) (k : Nat) (row : List ℚ)
    (hlen : row.length = draws.length) :
    draws.enum.foldl (fun r ic => r.set ic.1 (ic.2.getD k 0)) row
      = draws.map (fun col => col.getD k 0) := by
  have h1 : draws.enum.foldl (fun r ic => r.set ic.1 (ic.2.getD k 0)) row
      = ((draws.map (fun col => col.getD k 0)).enum).foldl
          (fun r iv => r.set iv.1 iv.2) row := by
    rw [List.enum_map, List.foldl_map]
    rfl
  rw [h1]
  have h2 : (draws.map (fun col => col.getD k 0)).enum
      = List.enumFrom 0 (draws.map (fun col => col.getD k 0)) := rfl
  rw [h2, foldl_set_enumFrom _ 0 row (by simpa using hlen)]
  simp

/-- Claim C6: `init_filter` with a boolean mask leaves every row whose mask
entry is false bit-identical to its pre-call value, and with no mask it
replaces every row `k` entirely with the fresh prior draws
`[prior_0.rvs(N)[k], ..., prior_{d-1}.rvs(N)[k]]` (stated for rows holding
one entry per prior, as the `(N, d)` particle matrix does). -/
theorem init_filter_mask_frame {O : Type} (pf : ParticleFilter O)
    (mask : List Bool) (k : Nat) :
    (mask.getD k false = false →
      ((pf.init_filter (some mask)).particles)[k]? = pf.particles[k]?) ∧
    (∀ row, pf.particles[k]? = some row → row.length = pf.priors.length →
      ((pf.init_filter none).particles)[k]? =
        some (pf.priors.map (fun prior => (prior pf.n_particles).getD k 0))) := by
  constructor
  · intro hm
    simp only [ParticleFilter.init_filter, init_filter_particles]
    exact foldl_set_column_mask_frame mask k hm _ _
  · intro row hrow hlen
    simp only [ParticleFilter.init_filter, init_filter_particles]
    rw [foldl_set_column_nomask_getElem?, hrow]
    simp only [Option.map_some', Option.some.injEq]
    rw [enum_foldl_set_full _ k row (by simpa using hlen)]
    rw [List.map_map]
    rfl

/-- Witness for `init_filter_mask_frame`: `pfC1` with mask `[false, true]`
at row 0, and the maskless reinitialisation of row 0. -/
theorem init_filter_mask_frame_witness :
    (((pfC1.init_filter (some [false, true])).particles)[0]? = pfC1.particles[0]?) ∧
    ((pfC1.init_filter none).particles)[0]? =
      some (pfC1.priors.map (fun prior => (prior pfC1.n_particles).getD 0 0)) := by
  have h := init_filter_mask_frame pfC1 [false, true] 0
  exact ⟨h.1 (by decide), h.2 [(0 : ℚ)] (by norm_num [pfC1, mkParticleFilter,
    List.replicate]) (by norm_num [pfC1, mkParticleFilter])⟩

/-- A sequenced list of options keeps its length, and every element of the
result occurs (wrapped in `some`) in the input. -/
theorem optList_some {α : Type} :
    ∀ (l : List (Option α)) (r : List α), optList l = some r →
      r.length = l.length ∧ ∀ x ∈ r, some x ∈ l := by
  intro l
  induction l with
  | nil =>
    intro r h
    simp only [optList, Option.some.injEq] at h
    subst h
    simp
  | cons o os ih =>
    intro r h
    simp only [optList] at h
    cases o with
    | none => simp at h
    | some a =>
      simp only [Option.some_bind] at h
      cases hr : optList os with
      | none => rw [hr] at h; simp at h
      | some as =>
        rw [hr] at h
        simp only [Option.map_some', Option.some.injEq] at h
        subst h
        obtain ⟨hl, hm⟩ := ih as hr
        refine ⟨by simp [hl], ?_⟩
        intro x hx
        rcases List.mem_cons.mp hx with h1 | h2
        · subst h1; simp
        · exact List.mem_cons_of_mem _ (hm x h2)

/-- A successful Python row access returns a row of the array. -/
theorem pyGetRow_mem {α : Type} (p : List α) (i : ℤ) (r : α)
    (h : pyGetRow p i = some r) : r ∈ p := by
  rw [pyGetRow] at h
  split_ifs at h
  · exact List.getElem?_mem h
  · exact List.getElem?_mem h

/-- A successful fancy-indexing call returns one row per index, each of them
a row of the original array. -/
theorem pyFancyRows_some {α : Type} (p : List α) (idxs : List ℤ) (q : List α)
    (h : pyFancyRows p idxs = some q) :
    q.length = idxs.length ∧ ∀ r ∈ q, r ∈ p := by
  obtain ⟨hl, hm⟩ := optList_some _ _ h
  refine ⟨by simpa using hl, ?_⟩
  intro r hr
  have := hm r hr
  rw [List.mem_map] at this
  obtain ⟨i, _, hi⟩ := this
  exact pyGetRow_mem p i r hi

/-- Claim C8: the particle matrix has shape `(n_particles, d)` before and
after every completed `update` call, provided the user-supplied
collaborators behave as the spec requires of them: dynamics and noise
preserve the `(N, D)` particle shape and the weight kernel returns one
weight per particle. -/
theorem update_particle_shape {O : Type} (pf : ParticleFilter O) (observed : O)
    (u0 : ℚ) (randv : List ℚ) (pf' : ParticleFilter O)
    (h0 : shape2 pf.particles pf.n_particles pf.d)
    (hdyn : ∀ p, shape2 p pf.n_particles pf.d →
      shape2 (pf.dynamics_fn p) pf.n_particles pf.d)
    (hnoise : ∀ p, shape2 p pf.n_particles pf.d →
      shape2 (pf.noise_fn p) pf.n_particles pf.d)
    (hw : (pf.weight_fn (pf.inverse_fn (pf.noise_fn (pf.dynamics_fn pf.particles)))
      observed).length = pf.n_particles)
    (hupd : pf.update observed u0 randv = some pf') :
    shape2 pf.particles pf.n_particles pf.d ∧
      shape2 pf'.particles pf.n_particles pf.d := by
  refine ⟨h0, ?_⟩
  have h1 : shape2 (pf.noise_fn (pf.dynamics_fn pf.particles)) pf.n_particles pf.d :=
    hnoise _ (hdyn _ h0)
  simp only [ParticleFilter.update] at hupd
  cases hr : resample (normalize_weights (pf.weight_fn
      (pf.inverse_fn (pf.noise_fn (pf.dynamics_fn pf.particles))) observed)) u0 with
  | none => rw [hr] at hupd; simp at hupd
  | some indices =>
    rw [hr] at hupd
    simp only [Option.some_bind] at hupd
    cases hp : pyFancyRows (pf.noise_fn (pf.dynamics_fn pf.particles)) indices with
    | none => rw [hp] at hupd; simp at hupd
    | some particles2 =>
      rw [hp] at hupd
      simp only [Option.map_some', Option.some.injEq] at hupd
      subst hupd
      have hidx : indices.length = pf.n_particles := by
        rw [resample_length _ _ _ hr, normalize_weights_length, hw]
      obtain ⟨hq1, hq2⟩ := pyFancyRows_some _ _ _ hp
      constructor
      · simp only [ParticleFilter.init_filter, init_filter_particles]
        rw [foldl_set_column_length]
        rw [hq1, hidx]
      · simp only [ParticleFilter.init_filter, init_filter_particles]
        refine foldl_set_column_rows_length _ _ _ _ ?_
        intro row hrow
        exact h1.2 row (hq2 row hrow)

/-- Witness for `update_particle_shape`: the concrete run of `pfC1`
(`N = 2`, `d = 1`). -/
theorem update_particle_shape_witness :
    shape2 pfC1.particles pfC1.n_particles pfC1.d ∧
      shape2 pfC1res.particles pfC1.n_particles pfC1.d :=
  update_particle_shape pfC1 () (1/2) [1, 1] pfC1res
    (by constructor <;> norm_num [pfC1, mkParticleFilter, shape2, List.replicate])
    (fun p _ => by constructor <;> norm_num [pfC1, mkParticleFilter, shape2])
    (fun p hp => hp)
    (by norm_num [pfC1, mkParticleFilter])
    pfC1_update_eq

/-- A 1-d array has one axis. -/
theorem ndim_toNP1 (r : List ℚ) : ndim (toNP1 r) = 1 := by
  cases r <;> simp [toNP1, ndim]

/-- A nonempty 2-d array has two axes. -/
theorem ndim_toNP2 (m : List (List ℚ)) (hm : m ≠ []) : ndim (toNP2 m) = 2 := by
  obtain ⟨r, m2, rfl⟩ := List.exists_cons_of_ne_nil hm
  simp [toNP2, ndim, ndim_toNP1]

/-- Sequencing a map of everywhere-successful computations succeeds. -/
theorem optList_map_some {α β : Type} (f : α → Option β) (g : α → β) :
    ∀ (l : List α), (∀ a ∈ l, f a = some (g a)) →
      optList (l.map f) = some (l.map g) := by
  intro l
  induction l with
  | nil => intro _; simp [optList]
  | cons a t ih =>
    intro h
    simp only [List.map_cons, optList]
    rw [h a (List.mem_cons_self a t),
      ih (fun b hb => h b (List.mem_cons_of_mem _ hb))]
    simp

/-- Scalar-scalar broadcasting subtraction. -/
theorem npSubF_scalar (fuel : Nat) (hf : 1 ≤ fuel) (p q : ℚ) :
    npSubF fuel (NP.s p) (NP.s q) = some (NP.s (p - q)) := by
  obtain ⟨f2, rfl⟩ : ∃ f2, fuel = f2 + 1 := ⟨fuel - 1, by omega⟩
  simp [npSubF, ndim]

/-- The equal-rank, equal-length branch of the broadcasting subtraction. -/
theorem npSubF_aa (f2 : Nat) (xs ys : List NP)
    (hnd : ndim (NP.a xs) = ndim (NP.a ys)) (hlen : xs.length = ys.length) :
    npSubF (f2 + 1) (NP.a xs) (NP.a ys)
      = (optList ((xs.zip ys).map (fun pq => npSubF f2 pq.1 pq.2))).map NP.a := by
  simp only [npSubF]
  rw [hnd]
  rw [if_neg (lt_irrefl _), if_neg (lt_irrefl _), if_pos hlen]

/-- The broadcast branch of the subtraction: a larger-rank left array maps
the subtraction across its leading axis. -/
theorem npSubF_a_left (f2 : Nat) (xs : List NP) (y : NP)
    (hnd : ndim y < ndim (NP.a xs)) :
    npSubF (f2 + 1) (NP.a xs) y
      = (optList (xs.map (fun x2 => npSubF f2 x2 y))).map NP.a := by
  simp only [npSubF]
  rw [if_pos hnd]

/-- Equal-length 1-d arrays subtract elementwise. -/
theorem npSubF_toNP1 (fuel : Nat) (hf : 2 ≤ fuel) (r s : List ℚ)
    (h : r.length = s.length) :
    npSubF fuel (toNP1 r) (toNP1 s)
      = some (toNP1 ((r.zip s).map (fun ab => ab.1 - ab.2))) := by
  obtain ⟨f2, rfl⟩ : ∃ f2, fuel = f2 + 1 := ⟨fuel - 1, by omega⟩
  have hf2 : 1 ≤ f2 := by omega
  rw [toNP1, toNP1, npSubF_aa f2 _ _ (by
      rw [← toNP1, ← toNP1, ndim_toNP1, ndim_toNP1]) (by simp [h])]
  rw [List.zip_map, List.map_map]
  rw [optList_map_some ((fun pq => npSubF f2 pq.1 pq.2) ∘ Prod.map NP.s NP.s)
    (fun ab => NP.s (ab.1 - ab.2)) (r.zip s)
    (fun ab _ => npSubF_scalar f2 hf2 ab.1 ab.2)]
  rw [Option.map_some']
  rw [toNP1, List.map_map]
  rfl

/-- Equal-shape 2-d arrays subtract elementwise. -/
theorem npSubF_toNP2 (fuel : Nat) (hf : 3 ≤ fuel) (m y : List (List ℚ))
    (W : Nat) (hlen : m.length = y.length) (hm : m ≠ []) (hy : y ≠ [])
    (hmr : ∀ r ∈ m, r.length = W) (hyr : ∀ r ∈ y, r.length = W) :
    npSubF fuel (toNP2 m) (toNP2 y) = some (toNP2 (sub2 m y)) := by
  obtain ⟨f2, rfl⟩ : ∃ f2, fuel = f2 + 1 := ⟨fuel - 1, by omega⟩
  have hf2 : 2 ≤ f2 := by omega
  rw [toNP2, toNP2, npSubF_aa f2 _ _ (by
      rw [← toNP2, ← toNP2, ndim_toNP2 m hm, ndim_toNP2 y hy]) (by simp [hlen])]
  rw [List.zip_map, List.map_map]
  rw [optList_map_some ((fun pq => npSubF f2 pq.1 pq.2) ∘ Prod.map toNP1 toNP1)
    (fun rs => toNP1 ((rs.1.zip rs.2).map (fun ab => ab.1 - ab.2))) (m.zip y)
    (fun rs hrs => by
      have hmem := List.of_mem_zip hrs
      exact npSubF_toNP1 f2 hf2 rs.1 rs.2
        (by rw [hmr rs.1 hmem.1, hyr rs.2 hmem.2]))]
  rw [Option.map_some']
  rw [toNP2, sub2, List.map_map]
  rfl

/-- Subtracting a 2-d observation from a batch of 2-d hypotheses broadcasts
the observation across the batch axis. -/
theorem npSub_batch (x : List (List (List ℚ))) (y : List (List ℚ)) (H W : Nat)
    (hH : 0 < H) (hx0 : x ≠ []) (hyH : y.length = H) (hyW : ∀ r ∈ y, r.length = W)
    (hxs : ∀ im ∈ x, im.length = H ∧ ∀ r ∈ im, r.length = W) :
    npSub (NP.a (x.map toNP2)) (toNP2 y)
      = some (NP.a (x.map (fun im => toNP2 (sub2 im y)))) := by
  have hyne : y ≠ [] := by
    intro hcon
    rw [hcon] at hyH
    simp at hyH
    omega
  have hndy : ndim (toNP2 y) = 2 := ndim_toNP2 y hyne
  have hndx : ndim (NP.a (x.map toNP2)) = 3 := by
    obtain ⟨im, x2, rfl⟩ := List.exists_cons_of_ne_nil hx0
    have him : im ≠ [] := by
      intro hcon
      have := (hxs im (List.mem_cons_self im x2)).1
      rw [hcon] at this
      simp at this
      omega
    simp [List.map_cons, ndim, ndim_toNP2 im him]
  rw [npSub, hndx, hndy]
  rw [npSubF_a_left (3 + 2) _ _ (by rw [hndx, hndy]; norm_num)]
  rw [List.map_map]
  rw [optList_map_some ((fun x2 => npSubF (3 + 2) x2 (toNP2 y)) ∘ toNP2)
    (fun im => toNP2 (sub2 im y)) x
    (fun im him => npSubF_toNP2 (3 + 2) (by norm_num) im y W
      (by rw [(hxs im him).1, hyH]) (by
        intro hcon
        have := (hxs im him).1
        rw [hcon] at this
        simp at this
        omega) hyne ((hxs im him).2) hyW)]
  rw [Option.map_some']

/-- `npSquareList` is an ordinary map. -/
theorem npSquareList_eq_map : ∀ (l : List NP), npSquareList l = l.map npSquare := by
  intro l
  induction l with
  | nil => rfl
  | cons a t ih => simp [npSquareList, ih]

/-- Squaring a 1-d array squares its entries. -/
theorem npSquare_toNP1 (r : List ℚ) :
    npSquare (toNP1 r) = toNP1 (r.map (fun q => q ^ 2)) := by
  rw [toNP1, npSquare, npSquareList_eq_map, List.map_map, toNP1, List.map_map]
  rfl

/-- Squaring a 2-d array squares its entries. -/
theorem npSquare_toNP2 (m : List (List ℚ)) :
    npSquare (toNP2 m) = toNP2 (sq2 m) := by
  rw [toNP2, npSquare, npSquareList_eq_map, List.map_map, toNP2, sq2, List.map_map]
  congr 1
  apply List.map_congr_left
  intro r _
  exact npSquare_toNP1 r

/-- `npMapList` is an ordinary map. -/
theorem npMapList_eq_map (f : ℚ → ℚ) :
    ∀ (l : List NP), npMapList f l = l.map (npMap f) := by
  intro l
  induction l with
  | nil => rfl
  | cons a t ih => simp [npMapList, ih]

/-- Folding IEEE-free rational additions over scalars sums them. -/
theorem foldAdd_scalars (qs : List ℚ) :
    ∀ (q : ℚ), foldAdd (NP.s q) (qs.map NP.s) = some (NP.s (q + qs.sum)) := by
  induction qs with
  | nil => intro q; simp [foldAdd]
  | cons b bs ih =>
    intro q
    simp only [List.map_cons, foldAdd, npAdd, Option.some_bind]
    rw [ih (q + b)]
    simp [add_assoc]

/-- Reducing a nonempty 1-d array along axis 0 yields its sum. -/
theorem sumAxis0_toNP1 (r : List ℚ) (hr : r ≠ []) :
    sumAxis (toNP1 r) 0 = some (NP.s r.sum) := by
  obtain ⟨q, qs, rfl⟩ := List.exists_cons_of_ne_nil hr
  simp only [toNP1, List.map_cons, sumAxis]
  rw [foldAdd_scalars qs q]
  simp

/-- `sumAxis` on an array node and a positive axis recurses one level. -/
theorem sumAxis_a_succ (xs : List NP) (k : Nat) :
    sumAxis (NP.a xs) (k + 1) = (sumAxisList xs k).map NP.a := by
  cases xs <;> simp [sumAxis]

/-- `sumAxis` on an array node and axis 2 recurses to axis 1. -/
theorem sumAxis_a_two (xs : List NP) :
    sumAxis (NP.a xs) 2 = (sumAxisList xs 1).map NP.a := sumAxis_a_succ xs 1

/-- `sumAxis` on an array node and axis 1 recurses to axis 0. -/
theorem sumAxis_a_one (xs : List NP) :
    sumAxis (NP.a xs) 1 = (sumAxisList xs 0).map NP.a := sumAxis_a_succ xs 0

/-- Mapping `sumAxis` across everywhere-successful sub-arrays succeeds. -/
theorem sumAxisList_map_some {α : Type} (k : Nat) (f : α → NP) (g : α → NP) :
    ∀ (l : List α), (∀ a ∈ l, sumAxis (f a) k = some (g a)) →
      sumAxisList (l.map f) k = some (l.map g) := by
  intro l
  induction l with
  | nil => intro _; simp [sumAxisList]
  | cons a t ih =>
    intro h
    simp only [List.map_cons, sumAxisList]
    rw [h a (List.mem_cons_self a t),
      ih (fun b hb => h b (List.mem_cons_of_mem _ hb))]
    simp

/-- Rows of an elementwise-squared difference of nonempty-width matrices are
nonempty. -/
theorem sq2_sub2_row_ne_nil (im y : List (List ℚ)) (W : Nat) (hW : 0 < W)
    (himr : ∀ r ∈ im, r.length = W) (hyr : ∀ r ∈ y, r.length = W) :
    ∀ row ∈ sq2 (sub2 im y), row ≠ [] := by
  intro row hrow
  rw [sq2, List.mem_map] at hrow
  obtain ⟨row2, hrow2, hrow2eq⟩ := hrow
  rw [sub2, List.mem_map] at hrow2
  obtain ⟨rs, hrs, hrseq⟩ := hrow2
  have hmem := List.of_mem_zip hrs
  have hlen : row.length = W := by
    rw [← hrow2eq, List.length_map, ← hrseq, List.length_map, List.length_zip,
      himr rs.1 hmem.1, hyr rs.2 hmem.2]
    omega
  intro hcon
  rw [hcon] at hlen
  simp at hlen
  omega

/-- Counterexample to claim C5: `squared_error` is *not* total on scalar or
vector hypotheses.  For a batch of two scalar hypotheses (shape `(2,)`, with
a scalar observation that broadcasts) and for a batch of two 1-d hypotheses
(shape `(2,1)`, with a matching 1-d observation), the hard-coded
`np.sum(..., axis=(1,2))` asks for an axis the array does not have and
raises `AxisError` — modelled here by `none` — before any weight is
produced. -/
theorem squared_error_axis_counterexample :
    squared_error_exponent (NP.a [NP.s 1, NP.s 2]) (NP.s 0) 1 = none ∧
    squared_error_exponent (NP.a [NP.a [NP.s 1], NP.a [NP.s 2]])
      (NP.a [NP.s 0]) 1 = none := by
  constructor <;>
    norm_num [squared_error_exponent, npSub, npSubF, ndim, optList,
      npSquare, npSquareList, sumAxes12, sumAxis, sumAxisList, foldAdd, npAdd]

/-- Claim C5 as amended: `squared_error` reduces over axes 1 and 2
specifically, so its domain is batches of 2-d (image-like) hypotheses; on
every such batch — `x` a nonempty list of `H×W` matrices, `H, W > 0`, the
observation `y` an `H×W` matrix broadcast against the batch — it succeeds,
and the weight of hypothesis `im` is `exp(-d/(2σ²))` with
`d = sqdist2 im y`, the squared Euclidean distance summed over both
non-batch axes; the array computed here is that exponent, to which the
source applies `np.exp` elementwise. -/
theorem squared_error_exponent_on_images (x : List (List (List ℚ)))
    (y : List (List ℚ)) (sigma : ℚ) (H W : Nat) (hH : 0 < H) (hW : 0 < W)
    (hx0 : x ≠ []) (hyH : y.length = H) (hyW : ∀ r ∈ y, r.length = W)
    (hxs : ∀ im ∈ x, im.length = H ∧ ∀ r ∈ im, r.length = W) :
    squared_error_exponent (NP.a (x.map toNP2)) (toNP2 y) sigma
      = some (NP.a (x.map (fun im =>
          NP.s (-(sqdist2 im y) / (2 * sigma ^ 2))))) := by
  rw [squared_error_exponent]
  rw [npSub_batch x y H W hH hx0 hyH hyW hxs]
  simp only [Option.some_bind]
  have hsq : npSquare (NP.a (x.map (fun im => toNP2 (sub2 im y))))
      = NP.a (x.map (fun im => toNP2 (sq2 (sub2 im y)))) := by
    rw [npSquare, npSquareList_eq_map, List.map_map]
    congr 1
    apply List.map_congr_left
    intro im _
    exact npSquare_toNP2 (sub2 im y)
  rw [hsq, sumAxes12]
  have hax2 : sumAxis (NP.a (x.map (fun im => toNP2 (sq2 (sub2 im y))))) 2
      = some (NP.a (x.map (fun im =>
          toNP1 ((sq2 (sub2 im y)).map List.sum)))) := by
    rw [sumAxis_a_two]
    rw [sumAxisList_map_some 1 (fun im => toNP2 (sq2 (sub2 im y)))
      (fun im => toNP1 ((sq2 (sub2 im y)).map List.sum))
      x (fun im him => by
        show sumAxis (toNP2 (sq2 (sub2 im y))) 1
          = some (toNP1 ((sq2 (sub2 im y)).map List.sum))
        rw [toNP2, sumAxis_a_one]
        rw [sumAxisList_map_some 0 toNP1 (fun row => NP.s row.sum) _
          (fun row hrow => sumAxis0_toNP1 row
            (sq2_sub2_row_ne_nil im y W hW (hxs im him).2 hyW row hrow))]
        rw [Option.map_some']
        simp only [toNP1, List.map_map]
        rfl)]
    rfl
  rw [hax2]
  simp only [Option.some_bind]
  have hax1 : sumAxis (NP.a (x.map (fun im =>
      toNP1 ((sq2 (sub2 im y)).map List.sum)))) 1
      = some (NP.a (x.map (fun im => NP.s (sqdist2 im y)))) := by
    rw [sumAxis_a_one]
    rw [sumAxisList_map_some 0 (fun im => toNP1 ((sq2 (sub2 im y)).map List.sum))
      (fun im => NP.s (sqdist2 im y)) x
      (fun im him => by
        show sumAxis (toNP1 ((sq2 (sub2 im y)).map List.sum)) 0
          = some (NP.s (sqdist2 im y))
        have hlen : ((sq2 (sub2 im y)).map List.sum).length = H := by
          rw [List.length_map, sq2, List.length_map, sub2, List.length_map,
            List.length_zip, (hxs im him).1, hyH]
          omega
        have hne : ((sq2 (sub2 im y)).map List.sum) ≠ [] := by
          intro hcon
          rw [hcon] at hlen
          simp at hlen
          omega
        rw [sumAxis0_toNP1 _ hne]
        simp only [sqdist2])]
    rfl
  rw [hax1]
  rw [Option.map_some']
  rw [npMap, npMapList_eq_map, List.map_map]
  rfl

/-- Witness for `squared_error_exponent_on_images`: one `2×2` image
hypothesis against a zero observation. -/
theorem squared_error_exponent_on_images_witness :
    squared_error_exponent (NP.a ([[[1, 2], [3, 4]]].map toNP2))
      (toNP2 [[0, 0], [0, 0]]) 1
      = some (NP.a ([[[1, 2], [3, 4]]].map (fun im =>
          NP.s (-(sqdist2 im [[0, 0], [0, 0]]) / (2 * 1 ^ 2))))) :=
  squared_error_exponent_on_images [[[1, 2], [3, 4]]] [[0, 0], [0, 0]] 1 2 2
    (by norm_num) (by norm_num) (by simp) (by norm_num)
    (by norm_num) (by norm_num)

/-- Witness for `update_preserves_config`: the concrete run of `pfC1`. -/
theorem update_preserves_config_witness :
    pfC1res.priors = pfC1.priors ∧ pfC1res.d = pfC1.d ∧
    pfC1res.n_particles = pfC1.n_particles ∧
    pfC1res.inverse_fn = pfC1.inverse_fn ∧
    pfC1res.dynamics_fn = pfC1.dynamics_fn ∧
    pfC1res.noise_fn = pfC1.noise_fn ∧ pfC1res.weight_fn = pfC1.weight_fn ∧
    pfC1res.resample_proportion = pfC1.resample_proportion ∧
    pfC1res.column_names = pfC1.column_names :=
  update_preserves_config pfC1 () (1/2) [1, 1] pfC1res pfC1_update_eq

end PFilter
